import Mathlib

/-!
Shallow embedding of the metric store and exposition engine of the
`stats/prometheus` package (files `prometheus/metric.go`,
`prometheus/atomic.go`, and the HTTP handler file).

Modelling conventions:
* `float64` values are modelled as exact rationals (`ℚ`); every numeric
  scenario in the claims is exact in IEEE double as well.
* `time.Time` is modelled as a number of nanoseconds since the Unix epoch
  (`Int`); the atomic timestamp cell stores whole milliseconds as in
  `timeToUnix`/`unixToTime`.
* `uint64` bucket counters are `Nat` reduced modulo `2 ^ 64` on `add`,
  mirroring machine wrap-around.
* Atomic cells and locks disappear: the model is the sequential semantics
  of the code, one operation at a time.
* Go maps are modelled as association lists; `assocSet` writes the value
  for a key in place (or appends a fresh binding), which reproduces the
  final contents of the Go map after a pointer-based in-place update.
-/

namespace Prom

/-- Go `unicode.IsSpace` restricted to the ASCII range, which is what the
`Accept-Encoding` header values in the claims exercise. -/
def goIsSpace (c : Char) : Bool :=
  c = ' ' || c = '\t' || c = '\n' || c = '\x0b' || c = '\x0c' || c = '\r'

/-- Go `strings.TrimSpace` on a byte/char sequence: drop whitespace from
both ends. -/
def goTrimSpace (s : List Char) : List Char :=
  ((s.dropWhile goIsSpace).reverse.dropWhile goIsSpace).reverse

/-- Go `strings.Split(s, sep)` for a one-character separator: the list of
(possibly empty) chunks between occurrences of `sep`.  On the empty string
it returns `[[]]`, exactly as Go returns `[""]`. -/
def goSplit (sep : Char) : List Char → List (List Char)
  | [] => [[]]
  | c :: rest =>
      if c = sep then [] :: goSplit sep rest
      else
        match goSplit sep rest with
        | [] => [[c]]
        | g :: gs => (c :: g) :: gs

/-- `acceptEncoding` from the handler file: split the header on commas,
trim each token, and test whether some token starts with `check`
(Go `strings.HasPrefix`). -/
def acceptEncoding (accept : String) (check : String) : Bool :=
  (goSplit ',' accept.data).any fun coding =>
    List.isPrefixOf check.data (goTrimSpace coding)

/-- `timeToUnix` from `atomic.go`: whole seconds (`t.Unix()`, floor
division) times 1000 plus `t.Nanosecond()/1e6`; `t.Nanosecond()` is the
non-negative remainder, so `/` and `%` below (Euclidean on `Int`) agree
with Go.  Input is in nanoseconds, output in milliseconds. -/
def timeToUnix (t : Int) : Int :=
  t / 1000000000 * 1000 + t % 1000000000 / 1000000

/-- `unixToTime` from `atomic.go`: `time.Unix(t/1e3, (t%1e3)*1e6)` as a
nanosecond instant.  Go uses truncated division, but any quotient/remainder
pair `q * 1000 + r = ms` yields the same instant `q * 1e9 + r * 1e6 =
ms * 1e6`, so Euclidean division is equivalent here. -/
def unixToTime (ms : Int) : Int :=
  ms / 1000 * 1000000000 + ms % 1000 * 1000000

/-- One label: a (name, value) pair of strings. -/
structure Label where
  name : String
  value : String
  deriving DecidableEq, Repr

/-- Modelled from the spec: the file defining the `labels` type is not under
`src/` (only its callers are).  §4.2 requires an order-sensitive hash over
the concatenation of the name/value pairs; any concrete such function works
for the store semantics, since the state map chains resolve collisions by
label equality. -/
def labelsHash (ls : List Label) : Nat :=
  ls.foldl
    (fun h l =>
      (l.name.data ++ l.value.data).foldl
        (fun h c => (h * 31 + c.toNat) % 2 ^ 64) h)
    1469598103934665603 % 2 ^ 64

/-- Modelled from the spec: `labels.equal` is element-wise string equality
(§4.2), which on `List Label` is propositional equality. -/
def labelsEqual (a b : List Label) : Bool := a = b

/-- Modelled from the spec: `labels.copyAppend` produces an independent
copy with one label appended; ownership is immaterial in a pure model. -/
def labelsCopyAppend (ls : List Label) (l : Label) : List Label := ls ++ [l]

/-- `metricType` from `metric.go`. -/
inductive metricType where
  | untyped
  | counter
  | gauge
  | histogram
  | summary
  deriving DecidableEq, Repr

/-- `metricKey` from `metric.go`: the store key (namespace, name). -/
structure metricKey where
  scope : String
  name : String
  deriving DecidableEq, Repr

/-- `metric` from `metric.go`: one collected record / one update event. -/
structure metric where
  mtype : metricType
  scope : String := ""
  name : String := ""
  help : String := ""
  value : ℚ := 0
  time : Int := 0
  labels : List Label := []
  deriving DecidableEq, Repr

def metric.key (m : metric) : metricKey := ⟨m.scope, m.name⟩

/-- `metricBucket` from `metric.go`; `count` is the uint64 atomic cell. -/
structure metricBucket where
  count : Nat := 0
  limit : ℚ := 0
  labels : List Label := []
  deriving DecidableEq, Repr

/-- `ftoa` renders a float via `strconv.FormatFloat(f, 'g', -1, 64)`
(shortest round-trip form).  Only the `le` bucket label ever holds this
string and no claim inspects it, so a plain rational rendering stands in. -/
def ftoa (f : ℚ) : String :=
  toString f.num ++ (if f.den = 1 then "" else "/" ++ toString f.den)

/-- `makeMetricBuckets` from `metric.go`: mirror the input bounds verbatim,
pre-rendering the `le` label for each. -/
def makeMetricBuckets (buckets : List ℚ) (ls : List Label) : List metricBucket :=
  buckets.map fun b => { limit := b, labels := labelsCopyAppend ls ⟨"le", ftoa b⟩ }

/-- `metricBuckets.update` from `metric.go`: increment the first bucket
whose limit is ≥ the sample, then stop; the uint64 add wraps mod 2⁶⁴. -/
def metricBucketsUpdate (value : ℚ) : List metricBucket → List metricBucket
  | [] => []
  | b :: bs =>
      if value ≤ b.limit then { b with count := (b.count + 1) % 2 ^ 64 } :: bs
      else b :: metricBucketsUpdate value bs

/-- `metricState` from `metric.go`.  `value`, `sum`, `count` are the
`atomicFloat64` cells; `time` is the `atomicTime` cell holding whole
milliseconds. -/
structure metricState where
  labels : List Label := []
  buckets : List metricBucket := []
  value : ℚ := 0
  sum : ℚ := 0
  count : ℚ := 0
  time : Int := 0
  deriving DecidableEq, Repr

/-- `newMetricState` from `metric.go` (the stored labels are a copy of the
caller's, i.e. the same list in a pure model). -/
def newMetricState (ls : List Label) : metricState := { labels := ls }

/-- `metricState.update` from `metric.go`: dispatch on the kind, then
unconditionally store the event timestamp. -/
def stateUpdate (st : metricState) (mtype : metricType) (value : ℚ)
    (tm : Int) (buckets : List ℚ) : metricState :=
  let st1 :=
    match mtype with
    | .counter => { st with value := st.value + value }
    | .gauge => { st with value := value }
    | .histogram =>
        let st0 :=
          if st.buckets.length ≠ buckets.length then
            { st with buckets := makeMetricBuckets buckets st.labels }
          else st
        { st0 with
            buckets := metricBucketsUpdate value st0.buckets
            sum := st0.sum + value
            count := st0.count + 1 }
    | _ => st
  { st1 with time := timeToUnix tm }

/-- Lookup in an association list modelling a Go map read (`m[k]`). -/
def assocFind {α β : Type} [DecidableEq α] : List (α × β) → α → Option β
  | [], _ => none
  | (k, v) :: rest, key => if k = key then some v else assocFind rest key

/-- Write `m[k] = v` into an association-list map: replace the binding in
place if present, append it otherwise. -/
def assocSet {α β : Type} [DecidableEq α] : List (α × β) → α → β → List (α × β)
  | [], key, v => [(key, v)]
  | (k, w) :: rest, key, v =>
      if k = key then (key, v) :: rest else (k, w) :: assocSet rest key v

/-- The scan inside `metricStateMap.find`: first state of the chain whose
labels equal the query. -/
def chainFind : List metricState → List Label → Option metricState
  | [], _ => none
  | st :: rest, ls =>
      if labelsEqual st.labels ls then some st else chainFind rest ls

/-- In-place mutation of the state found by `chainFind`: replace the first
chain element whose labels equal `ls`. -/
def chainReplace : List metricState → List Label → metricState → List metricState
  | [], _, _ => []
  | st :: rest, ls, new =>
      if labelsEqual st.labels ls then new :: rest
      else st :: chainReplace rest ls new

/-- `metricEntry` from `metric.go`; `states` is the `metricStateMap`
(label-set hash → chain of states). -/
structure metricEntry where
  mtype : metricType
  scope : String := ""
  name : String := ""
  help : String := ""
  bucket : String := ""
  sum : String := ""
  count : String := ""
  states : List (Nat × List metricState) := []
  deriving DecidableEq, Repr

/-- `newMetricEntry` from `metric.go`: for histograms, cache the three
sub-series names at creation. -/
def newMetricEntry (mtype : metricType) (scope name help : String) : metricEntry :=
  let entry : metricEntry := { mtype, scope, name, help }
  if mtype = .histogram then
    { entry with
        bucket := name ++ "_bucket"
        sum := name ++ "_sum"
        count := name ++ "_count" }
  else entry

/-- `metricEntry.lookup` followed by `metricState.update` on the returned
state: find (or double-checked-insert) the state for `ls`, then update it.
`metricStateMap.put` appends the new state to the chain of its hash. -/
def entryUpdate (entry : metricEntry) (mtype : metricType) (ls : List Label)
    (value : ℚ) (tm : Int) (buckets : List ℚ) : metricEntry :=
  let key := labelsHash ls
  let chain := (assocFind entry.states key).getD []
  match chainFind chain ls with
  | some st =>
      { entry with
          states := assocSet entry.states key
            (chainReplace chain ls (stateUpdate st mtype value tm buckets)) }
  | none =>
      let st := stateUpdate (newMetricState ls) mtype value tm buckets
      { entry with states := assocSet entry.states key (chain ++ [st]) }

/-- `metricState.collect` from `metric.go`.  Note that in the histogram
branch the source leaves the record's `scope` at its zero value. -/
def stateCollect (st : metricState) (entry : metricEntry) : List metric :=
  match entry.mtype with
  | .counter | .gauge =>
      [{ mtype := entry.mtype, scope := entry.scope, name := entry.name,
         help := entry.help, value := st.value, time := unixToTime st.time,
         labels := st.labels }]
  | .histogram =>
      (st.buckets.map fun b =>
        { mtype := entry.mtype, name := entry.bucket, help := entry.help,
          value := (b.count : ℚ), time := unixToTime st.time,
          labels := b.labels })
      ++ [{ mtype := entry.mtype, name := entry.sum, help := entry.help,
            value := st.sum, time := unixToTime st.time, labels := st.labels },
          { mtype := entry.mtype, name := entry.count, help := entry.help,
            value := st.count, time := unixToTime st.time, labels := st.labels }]
  | _ => []

/-- `metricEntry.collect`: append every state's records to the accumulator. -/
def entryCollect (metrics : List metric) (entry : metricEntry) : List metric :=
  entry.states.foldl
    (fun acc p => p.2.foldl (fun acc2 st => acc2 ++ stateCollect st entry) acc)
    metrics

/-- `metricEntry.cleanup`: keep only states with `exp.Before(state.time)`
(strictly newer than the threshold), dropping hash chains that become
empty. -/
def keepState (exp : Int) (st : metricState) : Bool :=
  decide (exp < unixToTime st.time)

def entryCleanup (exp : Int) (entry : metricEntry) : metricEntry :=
  { entry with
      states :=
        (entry.states.map fun p => (p.1, p.2.filter (keepState exp))).filter
          fun p => !p.2.isEmpty }

/-- `metricStore` from `metric.go`. -/
structure metricStore where
  entries : List (metricKey × metricEntry) := []
  deriving DecidableEq, Repr

/-- `metricStore.lookup`: reuse the entry when present with the same kind;
create (and store) a fresh entry when absent or when the kind differs. -/
def storeLookup (store : metricStore) (mtype : metricType) (key : metricKey)
    (help : String) : metricEntry × metricStore :=
  match assocFind store.entries key with
  | some entry =>
      if entry.mtype = mtype then (entry, store)
      else
        let entry1 := newMetricEntry mtype key.scope key.name help
        (entry1, { entries := assocSet store.entries key entry1 })
  | none =>
      let entry1 := newMetricEntry mtype key.scope key.name help
      (entry1, { entries := assocSet store.entries key entry1 })

/-- `metricStore.update`: resolve the entry, then the state, then update.
The Go code mutates the entry through its pointer; writing the updated
entry back at its key reproduces the final map contents. -/
def storeUpdate (store : metricStore) (m : metric) (buckets : List ℚ) : metricStore :=
  let (entry, store1) := storeLookup store m.mtype m.key m.help
  let entry1 := entryUpdate entry m.mtype m.labels m.value m.time buckets
  { entries := assocSet store1.entries m.key entry1 }

/-- `metricStore.collect`: append every entry's records. -/
def storeCollect (store : metricStore) (metrics : List metric) : List metric :=
  store.entries.foldl (fun acc p => entryCollect acc p.2) metrics

/-- `metricStore.cleanup`: clean every entry; an entry whose state map
became empty is deleted from the store (the `empty()` callback). -/
def storeCleanup (exp : Int) (store : metricStore) : metricStore :=
  { entries :=
      store.entries.filterMap fun p =>
        let entry1 := entryCleanup exp p.2
        if entry1.states.isEmpty then none else some (p.1, entry1) }

/-- The state an entry currently holds for a label set, if any: the read
path of `metricEntry.lookup`. -/
def entryFind (entry : metricEntry) (ls : List Label) : Option metricState :=
  chainFind ((assocFind entry.states (labelsHash ls)).getD []) ls

/-- The state currently stored for a given store key and label set, if
any: the read path that `update` uses to find the series. -/
def findState (store : metricStore) (key : metricKey) (ls : List Label) :
    Option metricState :=
  (assocFind store.entries key).bind fun entry => entryFind entry ls

/-- `metric.rootName` from `metric.go`, with the partial string slice made
explicit: `strings.LastIndexByte(name, '_')` is `-1` when the name has no
underscore, and `name[:-1]` then panics — modelled by `none`.  Names in
this package are ASCII, so byte and character indices coincide. -/
def lastUnderscoreIdx : List Char → Option Nat
  | [] => none
  | c :: rest =>
      match lastUnderscoreIdx rest with
      | some i => some (i + 1)
      | none => if c = '_' then some 0 else none

def rootName (m : metric) : Option String :=
  if m.mtype = .histogram then
    (lastUnderscoreIdx m.name.data).map fun i => String.mk (m.name.data.take i)
  else some m.name

/-- Apply a sequence of update events (each with its bucket list) to a
store, in order. -/
def applyAll (events : List (metric × List ℚ)) (store : metricStore) : metricStore :=
  events.foldl (fun s e => storeUpdate s e.1 e.2) store

/-- An update event aimed at one metric identity: the event's label set,
value, and timestamp. -/
def seriesEvent (mt : metricType) (key : metricKey)
    (e : List Label × ℚ × Int) : metric :=
  { mtype := mt, scope := key.scope, name := key.name,
    value := e.2.1, time := e.2.2, labels := e.1 }

/-- Apply a sequence of events of one kind to one metric identity. -/
def applySeries (mt : metricType) (key : metricKey) (buckets : List ℚ)
    (store : metricStore) (events : List (List Label × ℚ × Int)) : metricStore :=
  events.foldl (fun s e => storeUpdate s (seriesEvent mt key e) buckets) store

/-- Every entry reachable in a store built by `update` calls carries the
pre-rendered histogram sub-series names cached by `newMetricEntry`. -/
def storeWF (store : metricStore) : Prop :=
  ∀ k e, (k, e) ∈ store.entries → e.mtype = .histogram →
    e.bucket = e.name ++ "_bucket" ∧ e.sum = e.name ++ "_sum" ∧
    e.count = e.name ++ "_count"

/-- Scenario S1 of the spec: three counter updates on metric `A`. -/
def s1Store : metricStore :=
  applyAll
    [({ mtype := .counter, name := "A", value := 1 }, []),
     ({ mtype := .counter, name := "A", value := 2 }, []),
     ({ mtype := .counter, name := "A", value := 4, labels := [⟨"id", "123"⟩] }, [])]
    {}

/-- Scenario S2 of the spec: gauge updates on metric `B` over two label
sets. -/
def s2Store : metricStore :=
  applyAll
    [({ mtype := .gauge, name := "B", value := 1,
        labels := [⟨"a", "1"⟩, ⟨"b", "2"⟩] }, []),
     ({ mtype := .gauge, name := "B", value := 42, labels := [⟨"a", "1"⟩] }, []),
     ({ mtype := .gauge, name := "B", value := 21,
        labels := [⟨"a", "1"⟩, ⟨"b", "2"⟩] }, [])]
    {}

/-- Scenario S3 of the spec: histogram `C` with bounds
`[0.25, 0.5, 0.75, 1.0]` and samples `0.1, 0.1, 0.5, 10`. -/
def s3Store : metricStore :=
  applyAll
    ([(0.1 : ℚ), 0.1, 0.5, 10].map fun v =>
      ({ mtype := .histogram, name := "C", value := v },
       [(0.25 : ℚ), 0.5, 0.75, 1]))
    {}

/-- `now` of scenario S4, an arbitrary millisecond-aligned instant
(in nanoseconds). -/
def s4Now : Int := 1000000000000000

/-- Scenario S4 of the spec: five one-state series stamped
`now-1h, now-1m, now-1s, now, now+1s`. -/
def s4Store : metricStore :=
  applyAll
    ([(("A" : String), s4Now - 3600 * 1000000000),
      ("B", s4Now - 60 * 1000000000),
      ("C", s4Now - 1000000000),
      ("D", s4Now),
      ("E", s4Now + 1000000000)].map fun p =>
      ({ mtype := .counter, name := p.1, value := 1, time := p.2 }, []))
    {}

/-- A one-state entry stamped at 5 ms, and a one-entry store holding it:
concrete inputs for exercising the cleanup theorems. -/
def wState : metricState := { time := 5 }

def wEntry : metricEntry := { mtype := .counter, states := [(0, [wState])] }

def wStore : metricStore := { entries := [(⟨"", "X"⟩, wEntry)] }

/-- A gauge entry, for exercising the gauge collect projection. -/
def wGaugeEntry : metricEntry := { mtype := .gauge }


theorem stateUpdate_labels (st : metricState) (mt : metricType) (v : ℚ)
    (t : Int) (b : List ℚ) : (stateUpdate st mt v t b).labels = st.labels := by
  cases mt <;> simp only [stateUpdate] <;> split <;> simp

theorem stateUpdate_time (st : metricState) (mt : metricType) (v : ℚ)
    (t : Int) (b : List ℚ) : (stateUpdate st mt v t b).time = timeToUnix t := by
  cases mt <;> rfl

theorem assocFind_assocSet_self {α β : Type} [DecidableEq α]
    (l : List (α × β)) (k : α) (v : β) :
    assocFind (assocSet l k v) k = some v := by
  induction l with
  | nil => simp [assocFind, assocSet]
  | cons p rest ih =>
      obtain ⟨k1, v1⟩ := p
      by_cases h : k1 = k <;> simp [assocFind, assocSet, h, ih]

theorem assocFind_assocSet_ne {α β : Type} [DecidableEq α]
    (l : List (α × β)) (k k1 : α) (v : β) (h : k1 ≠ k) :
    assocFind (assocSet l k v) k1 = assocFind l k1 := by
  induction l with
  | nil => simp [assocFind, assocSet, h.symm]
  | cons p rest ih =>
      obtain ⟨k2, v2⟩ := p
      by_cases h2 : k2 = k
      · subst h2
        simp [assocFind, assocSet, h.symm, h]
      · by_cases h3 : k2 = k1 <;> simp [assocFind, assocSet, h2, h3, h, ih]

theorem assocFind_mem {α β : Type} [DecidableEq α]
    (l : List (α × β)) (k : α) (v : β) (h : assocFind l k = some v) :
    (k, v) ∈ l := by
  induction l with
  | nil => simp [assocFind] at h
  | cons p rest ih =>
      obtain ⟨k1, v1⟩ := p
      by_cases h1 : k1 = k
      · subst h1
        simp [assocFind] at h
        simp [h]
      · simp [assocFind, h1] at h
        exact List.mem_cons_of_mem _ (ih h)

theorem mem_assocSet {α β : Type} [DecidableEq α]
    (l : List (α × β)) (k k1 : α) (v v1 : β)
    (h : (k1, v1) ∈ assocSet l k v) :
    (k1 = k ∧ v1 = v) ∨ (k1, v1) ∈ l := by
  induction l with
  | nil => simp [assocSet] at h; simp [h]
  | cons p rest ih =>
      obtain ⟨k2, v2⟩ := p
      by_cases h2 : k2 = k
      · subst h2
        simp [assocSet] at h
        rcases h with h | h
        · exact Or.inl h
        · exact Or.inr (List.mem_cons_of_mem _ h)
      · simp [assocSet, h2] at h
        rcases h with h | h
        · exact Or.inr (by simp [h])
        · rcases ih h with h3 | h3
          · exact Or.inl h3
          · exact Or.inr (List.mem_cons_of_mem _ h3)

theorem chainFind_eq_some_labels (chain : List metricState) (ls : List Label)
    (st : metricState) (h : chainFind chain ls = some st) : st.labels = ls := by
  induction chain with
  | nil => simp [chainFind] at h
  | cons s rest ih =>
      by_cases h1 : s.labels = ls
      · simp [chainFind, labelsEqual, h1] at h
        subst h
        exact h1
      · simp [chainFind, labelsEqual, h1] at h
        exact ih h

theorem chainFind_chainReplace_self (chain : List metricState) (ls : List Label)
    (st new : metricState) (hfind : chainFind chain ls = some st)
    (hnew : new.labels = ls) :
    chainFind (chainReplace chain ls new) ls = some new := by
  induction chain with
  | nil => simp [chainFind] at hfind
  | cons s rest ih =>
      by_cases h1 : s.labels = ls
      · simp [chainReplace, chainFind, labelsEqual, h1, hnew]
      · simp [chainFind, chainReplace, labelsEqual, h1] at hfind ⊢
        exact ih hfind

theorem chainFind_chainReplace_ne (chain : List metricState) (ls ls1 : List Label)
    (new : metricState) (hne : ls1 ≠ ls) (hnew : new.labels = ls) :
    chainFind (chainReplace chain ls new) ls1 = chainFind chain ls1 := by
  induction chain with
  | nil => simp [chainReplace]
  | cons s rest ih =>
      by_cases h1 : s.labels = ls
      · simp [chainReplace, chainFind, labelsEqual, h1, hnew, hne.symm]
      · simp [chainReplace, chainFind, labelsEqual, h1, ih]

theorem chainFind_append (a b : List metricState) (ls : List Label) :
    chainFind (a ++ b) ls =
      match chainFind a ls with
      | some st => some st
      | none => chainFind b ls := by
  induction a with
  | nil => simp [chainFind]
  | cons s rest ih =>
      by_cases h1 : s.labels = ls <;> simp [chainFind, labelsEqual, h1, ih]


theorem newMetricEntry_mtype (mt : metricType) (scope name help : String) :
    (newMetricEntry mt scope name help).mtype = mt := by
  unfold newMetricEntry
  split <;> rfl

theorem newMetricEntry_states (mt : metricType) (scope name help : String) :
    (newMetricEntry mt scope name help).states = [] := by
  unfold newMetricEntry
  split <;> rfl

theorem entryUpdate_fields (e : metricEntry) (mt : metricType) (ls : List Label)
    (v : ℚ) (t : Int) (b : List ℚ) :
    (entryUpdate e mt ls v t b).mtype = e.mtype ∧
    (entryUpdate e mt ls v t b).name = e.name ∧
    (entryUpdate e mt ls v t b).scope = e.scope ∧
    (entryUpdate e mt ls v t b).bucket = e.bucket ∧
    (entryUpdate e mt ls v t b).sum = e.sum ∧
    (entryUpdate e mt ls v t b).count = e.count := by
  cases hf : chainFind ((assocFind e.states (labelsHash ls)).getD []) ls <;>
    simp [entryUpdate, hf]

theorem entryFind_entryUpdate_self (e : metricEntry) (mt : metricType)
    (ls : List Label) (v : ℚ) (t : Int) (b : List ℚ) :
    entryFind (entryUpdate e mt ls v t b) ls =
      some (stateUpdate ((entryFind e ls).getD (newMetricState ls)) mt v t b) := by
  unfold entryFind entryUpdate
  cases hf : chainFind ((assocFind e.states (labelsHash ls)).getD []) ls with
  | some st =>
      simp only [hf, Option.getD_some]
      rw [assocFind_assocSet_self]
      simp only [Option.getD_some]
      exact chainFind_chainReplace_self _ _ _ _ hf
        (by rw [stateUpdate_labels]; exact chainFind_eq_some_labels _ _ _ hf)
  | none =>
      simp only [hf]
      rw [assocFind_assocSet_self]
      simp only [Option.getD_some]
      rw [chainFind_append]
      simp only [hf]
      simp [chainFind, labelsEqual, stateUpdate_labels, newMetricState]

theorem entryFind_entryUpdate_ne (e : metricEntry) (mt : metricType)
    (ls ls1 : List Label) (v : ℚ) (t : Int) (b : List ℚ) (hne : ls1 ≠ ls) :
    entryFind (entryUpdate e mt ls v t b) ls1 = entryFind e ls1 := by
  unfold entryFind entryUpdate
  by_cases hh : labelsHash ls1 = labelsHash ls
  · cases hf : chainFind ((assocFind e.states (labelsHash ls)).getD []) ls with
    | some st =>
        simp only [hf, hh]
        rw [assocFind_assocSet_self]
        simp only [Option.getD_some]
        exact chainFind_chainReplace_ne _ _ _ _ hne
          (by rw [stateUpdate_labels]; exact chainFind_eq_some_labels _ _ _ hf)
    | none =>
        simp only [hf, hh]
        rw [assocFind_assocSet_self]
        simp only [Option.getD_some]
        rw [chainFind_append]
        cases hg : chainFind ((assocFind e.states (labelsHash ls)).getD []) ls1 with
        | some st1 => simp [hg]
        | none =>
            simp [hg, chainFind, labelsEqual, stateUpdate_labels,
              newMetricState, hne.symm]
  · cases hf : chainFind ((assocFind e.states (labelsHash ls)).getD []) ls with
    | some st =>
        simp only [hf]
        rw [assocFind_assocSet_ne _ _ _ _ hh]
    | none =>
        simp only [hf]
        rw [assocFind_assocSet_ne _ _ _ _ hh]


theorem metricKey_eta (k : metricKey) : (⟨k.scope, k.name⟩ : metricKey) = k := rfl

theorem seriesEvent_key (mt : metricType) (key : metricKey)
    (e : List Label × ℚ × Int) : (seriesEvent mt key e).key = key := rfl

theorem entryFind_newMetricEntry (mt : metricType) (scope name help : String)
    (ls : List Label) : entryFind (newMetricEntry mt scope name help) ls = none := by
  simp [entryFind, newMetricEntry_states, assocFind, chainFind]

theorem findState_storeUpdate_self (store : metricStore) (m : metric)
    (b : List ℚ)
    (hkind : ∀ e, assocFind store.entries m.key = some e → e.mtype = m.mtype) :
    findState (storeUpdate store m b) m.key m.labels =
      some (stateUpdate ((findState store m.key m.labels).getD
        (newMetricState m.labels)) m.mtype m.value m.time b) := by
  unfold findState storeUpdate storeLookup
  cases hf : assocFind store.entries m.key with
  | none =>
      simp [assocFind_assocSet_self, entryFind_entryUpdate_self,
        entryFind_newMetricEntry]
  | some e =>
      have hmt : e.mtype = m.mtype := hkind e hf
      simp [hmt, assocFind_assocSet_self, entryFind_entryUpdate_self]

theorem findState_storeUpdate_ne_key (store : metricStore) (m : metric)
    (b : List ℚ) (key1 : metricKey) (ls1 : List Label) (hk : key1 ≠ m.key) :
    findState (storeUpdate store m b) key1 ls1 = findState store key1 ls1 := by
  unfold findState storeUpdate storeLookup
  cases hf : assocFind store.entries m.key with
  | none =>
      rw [assocFind_assocSet_ne _ _ _ _ hk, assocFind_assocSet_ne _ _ _ _ hk]
  | some e =>
      by_cases hmt : e.mtype = m.mtype
      · simp only [hmt, eq_self_iff_true, if_true]
        rw [assocFind_assocSet_ne _ _ _ _ hk]
      · simp only [if_neg hmt]
        rw [assocFind_assocSet_ne _ _ _ _ hk, assocFind_assocSet_ne _ _ _ _ hk]

theorem findState_storeUpdate_ne_labels (store : metricStore) (m : metric)
    (b : List ℚ) (ls1 : List Label) (hl : ls1 ≠ m.labels)
    (hkind : ∀ e, assocFind store.entries m.key = some e → e.mtype = m.mtype) :
    findState (storeUpdate store m b) m.key ls1 = findState store m.key ls1 := by
  unfold findState storeUpdate storeLookup
  cases hf : assocFind store.entries m.key with
  | none =>
      simp [assocFind_assocSet_self, entryFind_entryUpdate_ne _ _ _ _ _ _ _ hl,
        entryFind_newMetricEntry]
  | some e =>
      have hmt : e.mtype = m.mtype := hkind e hf
      simp [hmt, assocFind_assocSet_self, entryFind_entryUpdate_ne _ _ _ _ _ _ _ hl]

theorem storeUpdate_kind_self (store : metricStore) (m : metric) (b : List ℚ) :
    ∀ e, assocFind (storeUpdate store m b).entries m.key = some e →
      e.mtype = m.mtype := by
  intro e he
  unfold storeUpdate storeLookup at he
  cases hf : assocFind store.entries m.key with
  | none =>
      rw [hf] at he
      simp [assocFind_assocSet_self] at he
      subst he
      rw [(entryUpdate_fields _ _ _ _ _ _).1, newMetricEntry_mtype]
  | some e1 =>
      rw [hf] at he
      by_cases hmt : e1.mtype = m.mtype
      · simp [hmt, assocFind_assocSet_self] at he
        subst he
        rw [(entryUpdate_fields _ _ _ _ _ _).1]
        exact hmt
      · simp [hmt, assocFind_assocSet_self] at he
        subst he
        rw [(entryUpdate_fields _ _ _ _ _ _).1, newMetricEntry_mtype]


theorem getD_newMetricState_value (o : Option metricState) (ls : List Label) :
    (o.getD (newMetricState ls)).value = (o.map (·.value)).getD 0 := by
  cases o <;> simp [newMetricState]

theorem seriesEvent_labels (mt : metricType) (key : metricKey)
    (e : List Label × ℚ × Int) : (seriesEvent mt key e).labels = e.1 := rfl

theorem seriesEvent_mtype (mt : metricType) (key : metricKey)
    (e : List Label × ℚ × Int) : (seriesEvent mt key e).mtype = mt := rfl

theorem seriesEvent_value (mt : metricType) (key : metricKey)
    (e : List Label × ℚ × Int) : (seriesEvent mt key e).value = e.2.1 := rfl

theorem seriesEvent_time (mt : metricType) (key : metricKey)
    (e : List Label × ℚ × Int) : (seriesEvent mt key e).time = e.2.2 := rfl

theorem counter_fold_value (key : metricKey) (L : List Label) :
    ∀ (events : List (List Label × ℚ × Int)) (store : metricStore),
      (∀ e, assocFind store.entries key = some e → e.mtype = .counter) →
      (findState (applySeries .counter key [] store events) key L).map (·.value) =
        if (events.filter fun e => decide (e.1 = L)).isEmpty then
          (findState store key L).map (·.value)
        else
          some ((((findState store key L).map (·.value)).getD 0)
            + (((events.filter fun e => decide (e.1 = L)).map fun e => e.2.1).sum)) := by
  intro events
  induction events with
  | nil => intro store hkind; simp [applySeries]
  | cons e rest ih =>
      intro store hkind
      have hstep : applySeries .counter key [] store (e :: rest) =
          applySeries .counter key []
            (storeUpdate store (seriesEvent .counter key e) []) rest := rfl
      have hkind1 := storeUpdate_kind_self store (seriesEvent .counter key e) []
      rw [seriesEvent_key, seriesEvent_mtype] at hkind1
      by_cases hL : e.1 = L
      · subst hL
        have hself := findState_storeUpdate_self store (seriesEvent .counter key e) [] (by
          rw [seriesEvent_key, seriesEvent_mtype]; exact hkind)
        rw [seriesEvent_key, seriesEvent_labels, seriesEvent_mtype, seriesEvent_value,
          seriesEvent_time] at hself
        have hval : (findState (storeUpdate store (seriesEvent .counter key e) []) key
            e.1).map (·.value) =
            some ((((findState store key e.1).map (·.value)).getD 0) + e.2.1) := by
          rw [hself]
          simp [stateUpdate, getD_newMetricState_value]
        rw [hstep, ih _ hkind1]
        by_cases hfr : (rest.filter fun x => decide (x.1 = e.1)).isEmpty
        · have hfr1 : (rest.filter fun x => decide (x.1 = e.1)) = [] := by
            simpa using hfr
          simp [List.filter_cons, hfr1, hval]
        · simp [List.filter_cons, hfr, hval, add_assoc]
      · have hne : findState (storeUpdate store (seriesEvent .counter key e) []) key L =
            findState store key L := by
          have h1 := findState_storeUpdate_ne_labels store (seriesEvent .counter key e) [] L
            (by rw [seriesEvent_labels]; exact fun h => hL h.symm)
            (by rw [seriesEvent_key, seriesEvent_mtype]; exact hkind)
          rwa [seriesEvent_key] at h1
        have hfc : List.filter (fun x => decide (x.1 = L)) (e :: rest) =
            List.filter (fun x => decide (x.1 = L)) rest := by
          simp [List.filter_cons, hL]
        rw [hstep, ih _ hkind1, hne, hfc]

theorem gauge_fold_value (key : metricKey) (L : List Label) :
    ∀ (events : List (List Label × ℚ × Int)) (store : metricStore),
      (∀ e, assocFind store.entries key = some e → e.mtype = .gauge) →
      (findState (applySeries .gauge key [] store events) key L).map (·.value) =
        match (events.filter fun e => decide (e.1 = L)).getLast? with
        | none => (findState store key L).map (·.value)
        | some e => some e.2.1 := by
  intro events
  induction events with
  | nil => intro store hkind; simp [applySeries]
  | cons e rest ih =>
      intro store hkind
      have hstep : applySeries .gauge key [] store (e :: rest) =
          applySeries .gauge key []
            (storeUpdate store (seriesEvent .gauge key e) []) rest := rfl
      have hkind1 := storeUpdate_kind_self store (seriesEvent .gauge key e) []
      rw [seriesEvent_key, seriesEvent_mtype] at hkind1
      by_cases hL : e.1 = L
      · subst hL
        have hself := findState_storeUpdate_self store (seriesEvent .gauge key e) [] (by
          rw [seriesEvent_key, seriesEvent_mtype]; exact hkind)
        rw [seriesEvent_key, seriesEvent_labels, seriesEvent_mtype, seriesEvent_value,
          seriesEvent_time] at hself
        have hval : (findState (storeUpdate store (seriesEvent .gauge key e) []) key
            e.1).map (·.value) = some e.2.1 := by
          rw [hself]
          simp [stateUpdate]
        rw [hstep, ih _ hkind1]
        cases hfr : rest.filter fun x => decide (x.1 = e.1) with
        | nil => simp [List.filter_cons, hfr, hval]
        | cons f fs =>
            have hfc : (e :: rest).filter (fun x => decide (x.1 = e.1)) = e :: f :: fs := by
              simp [List.filter_cons, hfr]
            rw [hfc, List.getLast?_cons_cons]
            cases hg : (f :: fs).getLast? with
            | none => simp at hg
            | some e1 => simp
      · have hne : findState (storeUpdate store (seriesEvent .gauge key e) []) key L =
            findState store key L := by
          have h1 := findState_storeUpdate_ne_labels store (seriesEvent .gauge key e) [] L
            (by rw [seriesEvent_labels]; exact fun h => hL h.symm)
            (by rw [seriesEvent_key, seriesEvent_mtype]; exact hkind)
          rwa [seriesEvent_key] at h1
        have hfc : List.filter (fun x => decide (x.1 = L)) (e :: rest) =
            List.filter (fun x => decide (x.1 = L)) rest := by
          simp [List.filter_cons, hL]
        rw [hstep, ih _ hkind1, hne, hfc]


theorem metricBucketsUpdate_of_none (v : ℚ) (bs : List metricBucket)
    (h : ∀ b ∈ bs, b.limit < v) : metricBucketsUpdate v bs = bs := by
  induction bs with
  | nil => rfl
  | cons b rest ih =>
      have hb : b.limit < v := h b (by simp)
      simp [metricBucketsUpdate, not_le.mpr hb]
      exact ih fun x hx => h x (by simp [hx])

theorem metricBucketsUpdate_of_first (v : ℚ) :
    ∀ (bs : List metricBucket) (i : Nat) (hi : i < bs.length),
      (∀ j (hj : j < i), (bs.get ⟨j, lt_trans hj hi⟩).limit < v) →
      v ≤ (bs.get ⟨i, hi⟩).limit →
      metricBucketsUpdate v bs =
        bs.set i { bs.get ⟨i, hi⟩ with count := ((bs.get ⟨i, hi⟩).count + 1) % 2 ^ 64 } := by
  intro bs
  induction bs with
  | nil => intro i hi; simp at hi
  | cons b rest ih =>
      intro i hi hfirst hv
      cases i with
      | zero =>
          simp only [List.get] at hv
          simp [metricBucketsUpdate, hv]
      | succ i =>
          have hb : b.limit < v := hfirst 0 (Nat.succ_pos i)
          have hi1 : i < rest.length := Nat.lt_of_succ_lt_succ hi
          simp only [metricBucketsUpdate, not_le.mpr hb, if_neg (not_le.mpr hb)]
          rw [ih i hi1 (fun j hj => hfirst (j + 1) (Nat.succ_lt_succ hj))
            (by simpa using hv)]
          simp

theorem storeCleanup_time (exp : Int) (store : metricStore) :
    ∀ k e, (k, e) ∈ (storeCleanup exp store).entries →
      ∀ p ∈ e.states, ∀ st ∈ p.2, exp < unixToTime st.time := by
  intro k e hke p hp st hst
  unfold storeCleanup at hke
  simp only [List.mem_filterMap] at hke
  obtain ⟨q, hq, hsome⟩ := hke
  by_cases hemp : (entryCleanup exp q.2).states.isEmpty
  · simp [hemp] at hsome
  · simp only [Bool.not_eq_true] at hemp
    rw [hemp] at hsome
    simp only [Bool.false_eq_true, if_false] at hsome
    obtain ⟨h1, h2⟩ := Prod.mk.injEq .. ▸ (Option.some.injEq .. ▸ hsome)
    subst h2
    unfold entryCleanup at hp
    simp only [List.mem_filter, List.mem_map] at hp
    obtain ⟨⟨p0, hp0, hpp⟩, _⟩ := hp
    subst hpp
    simp only [List.mem_filter] at hst
    have := hst.2
    simpa [keepState] using this

theorem storeCleanup_no_empty (exp : Int) (store : metricStore) :
    ∀ k e, (k, e) ∈ (storeCleanup exp store).entries →
      e.states ≠ [] ∧ ∀ p ∈ e.states, p.2 ≠ [] := by
  intro k e hke
  unfold storeCleanup at hke
  simp only [List.mem_filterMap] at hke
  obtain ⟨q, hq, hsome⟩ := hke
  by_cases hemp : (entryCleanup exp q.2).states.isEmpty
  · simp [hemp] at hsome
  · simp only [Bool.not_eq_true] at hemp
    rw [hemp] at hsome
    simp only [Bool.false_eq_true, if_false] at hsome
    obtain ⟨h1, h2⟩ := Prod.mk.injEq .. ▸ (Option.some.injEq .. ▸ hsome)
    subst h2
    constructor
    · intro hnil
      rw [hnil] at hemp
      simp at hemp
    · intro p hp
      unfold entryCleanup at hp
      simp only [List.mem_filter] at hp
      have := hp.2
      intro hnil
      rw [hnil] at this
      simp at this


theorem newMetricEntry_name (mt : metricType) (scope name help : String) :
    (newMetricEntry mt scope name help).name = name := by
  unfold newMetricEntry
  split <;> rfl

theorem newMetricEntry_wf (mt : metricType) (scope name help : String) :
    (newMetricEntry mt scope name help).mtype = .histogram →
      (newMetricEntry mt scope name help).bucket =
        (newMetricEntry mt scope name help).name ++ "_bucket" ∧
      (newMetricEntry mt scope name help).sum =
        (newMetricEntry mt scope name help).name ++ "_sum" ∧
      (newMetricEntry mt scope name help).count =
        (newMetricEntry mt scope name help).name ++ "_count" := by
  intro hh
  rw [newMetricEntry_mtype] at hh
  subst hh
  simp [newMetricEntry]

theorem storeWF_empty : storeWF {} := by
  intro k e hke
  simp [metricStore.entries] at hke

theorem entryUpdate_wf (e : metricEntry) (mt : metricType) (ls : List Label)
    (v : ℚ) (t : Int) (b : List ℚ)
    (h : e.mtype = .histogram → e.bucket = e.name ++ "_bucket" ∧
      e.sum = e.name ++ "_sum" ∧ e.count = e.name ++ "_count") :
    (entryUpdate e mt ls v t b).mtype = .histogram →
      (entryUpdate e mt ls v t b).bucket = (entryUpdate e mt ls v t b).name ++ "_bucket" ∧
      (entryUpdate e mt ls v t b).sum = (entryUpdate e mt ls v t b).name ++ "_sum" ∧
      (entryUpdate e mt ls v t b).count = (entryUpdate e mt ls v t b).name ++ "_count" := by
  obtain ⟨h1, h2, h3, h4, h5, h6⟩ := entryUpdate_fields e mt ls v t b
  rw [h1, h2, h4, h5, h6]
  exact h

theorem storeWF_storeUpdate (store : metricStore) (m : metric) (b : List ℚ)
    (h : storeWF store) : storeWF (storeUpdate store m b) := by
  intro k e hke hh
  unfold storeUpdate storeLookup at hke
  cases hf : assocFind store.entries m.key with
  | none =>
      rw [hf] at hke
      simp only [] at hke
      rcases mem_assocSet _ _ _ _ _ hke with ⟨hk, he⟩ | hin
      · subst he
        exact entryUpdate_wf _ _ _ _ _ _ (newMetricEntry_wf _ _ _ _) hh
      · rcases mem_assocSet _ _ _ _ _ hin with ⟨hk2, he2⟩ | hin2
        · subst he2
          exact newMetricEntry_wf _ _ _ _ hh
        · exact h k e hin2 hh
  | some e1 =>
      rw [hf] at hke
      by_cases hmt : e1.mtype = m.mtype
      · simp only [hmt, eq_self_iff_true, if_true] at hke
        rcases mem_assocSet _ _ _ _ _ hke with ⟨hk, he⟩ | hin
        · subst he
          exact entryUpdate_wf _ _ _ _ _ _ (fun hh1 => h _ _ (assocFind_mem _ _ _ hf) hh1) hh
        · exact h k e hin hh
      · simp only [if_neg hmt] at hke
        rcases mem_assocSet _ _ _ _ _ hke with ⟨hk, he⟩ | hin
        · subst he
          exact entryUpdate_wf _ _ _ _ _ _ (newMetricEntry_wf _ _ _ _) hh
        · rcases mem_assocSet _ _ _ _ _ hin with ⟨hk2, he2⟩ | hin2
          · subst he2
            exact newMetricEntry_wf _ _ _ _ hh
          · exact h k e hin2 hh

theorem storeWF_applyAll :
    ∀ (updates : List (metric × List ℚ)) (store : metricStore),
      storeWF store → storeWF (applyAll updates store) := by
  intro updates
  induction updates with
  | nil => intro store h; exact h
  | cons u rest ih =>
      intro store h
      exact ih _ (storeWF_storeUpdate _ _ _ h)

theorem mem_stateCollect_mtype (m : metric) (st : metricState) (e : metricEntry)
    (hm : m ∈ stateCollect st e) : m.mtype = e.mtype := by
  unfold stateCollect at hm
  cases he : e.mtype <;> rw [he] at hm <;> simp at hm
  case counter => rw [hm]
  case gauge => rw [hm]
  case histogram =>
      rcases hm with ⟨b, _, hb⟩ | hm | hm
      · rw [← hb]
      · rw [hm]
      · rw [hm]

theorem mem_stateCollect_hist_name (m : metric) (st : metricState)
    (e : metricEntry) (hh : e.mtype = .histogram) (hm : m ∈ stateCollect st e) :
    m.name = e.bucket ∨ m.name = e.sum ∨ m.name = e.count := by
  unfold stateCollect at hm
  rw [hh] at hm
  simp at hm
  rcases hm with ⟨b, _, hb⟩ | hm | hm
  · left; rw [← hb]
  · right; left; rw [hm]
  · right; right; rw [hm]

theorem mem_chain_fold (m : metric) (e : metricEntry) :
    ∀ (chain : List metricState) (acc : List metric),
      m ∈ chain.foldl (fun acc2 st => acc2 ++ stateCollect st e) acc →
      m ∈ acc ∨ ∃ st, m ∈ stateCollect st e := by
  intro chain
  induction chain with
  | nil => intro acc hm; exact Or.inl hm
  | cons s rest ih =>
      intro acc hm
      rcases ih _ hm with hin | hst
      · rcases List.mem_append.mp hin with h1 | h1
        · exact Or.inl h1
        · exact Or.inr ⟨s, h1⟩
      · exact Or.inr hst

theorem mem_entryCollect (m : metric) (e : metricEntry) :
    ∀ (states : List (Nat × List metricState)) (acc : List metric),
      m ∈ states.foldl
        (fun acc p => p.2.foldl (fun acc2 st => acc2 ++ stateCollect st e) acc) acc →
      m ∈ acc ∨ ∃ st, m ∈ stateCollect st e := by
  intro states
  induction states with
  | nil => intro acc hm; exact Or.inl hm
  | cons p rest ih =>
      intro acc hm
      rcases ih _ hm with hin | hst
      · exact mem_chain_fold m e p.2 acc hin
      · exact Or.inr hst

theorem mem_storeCollect (m : metric) :
    ∀ (entries : List (metricKey × metricEntry)) (acc : List metric),
      m ∈ entries.foldl (fun acc p => entryCollect acc p.2) acc →
      m ∈ acc ∨ ∃ k e, (k, e) ∈ entries ∧ ∃ st, m ∈ stateCollect st e := by
  intro entries
  induction entries with
  | nil => intro acc hm; exact Or.inl hm
  | cons p rest ih =>
      intro acc hm
      rcases ih _ hm with hin | ⟨k, e, hke, hst⟩
      · rcases mem_entryCollect m p.2 _ _ hin with h1 | h1
        · exact Or.inl h1
        · exact Or.inr ⟨p.1, p.2, by simp, h1⟩
      · exact Or.inr ⟨k, e, List.mem_cons_of_mem _ hke, hst⟩

theorem lastUnderscoreIdx_eq_none (cs : List Char) (h : '_' ∉ cs) :
    lastUnderscoreIdx cs = none := by
  induction cs with
  | nil => rfl
  | cons c rest ih =>
      have hc : ¬c = '_' := fun hc => h (by simp [hc])
      have hr : '_' ∉ rest := fun hr => h (by simp [hr])
      simp [lastUnderscoreIdx, ih hr, hc]

theorem lastUnderscoreIdx_isSome (cs : List Char) (h : '_' ∈ cs) :
    (lastUnderscoreIdx cs).isSome := by
  induction cs with
  | nil => simp at h
  | cons c rest ih =>
      unfold lastUnderscoreIdx
      cases hr : lastUnderscoreIdx rest with
      | some i => simp
      | none =>
          rcases List.mem_cons.mp h with hc | hc
          · simp [← hc]
          · have := ih hc
            rw [hr] at this
            simp at this

theorem lastUnderscoreIdx_concat (p sfx : List Char) (h : '_' ∉ sfx) :
    lastUnderscoreIdx (p ++ '_' :: sfx) = some p.length := by
  induction p with
  | nil => simp [lastUnderscoreIdx, lastUnderscoreIdx_eq_none sfx h]
  | cons c rest ih => simp [lastUnderscoreIdx, ih]


/-- C6: for a (namespace, name) key already present in the store, an update
whose kind differs from the stored entry's kind replaces that entry with a
fresh one of the new kind (whose state map is empty, so all previously
aggregated states are discarded), whereas an update with the same kind
reuses the existing entry unchanged; metric identity is (namespace, name,
kind). -/
theorem C6_kind_change_replaces_entry (store : metricStore) (mt : metricType)
    (key : metricKey) (help : String) (e : metricEntry)
    (hf : assocFind store.entries key = some e) :
    (e.mtype ≠ mt →
      storeLookup store mt key help =
        (newMetricEntry mt key.scope key.name help,
         { entries := assocSet store.entries key
             (newMetricEntry mt key.scope key.name help) }) ∧
      (newMetricEntry mt key.scope key.name help).states = []) ∧
    (e.mtype = mt → storeLookup store mt key help = (e, store)) := by
  constructor
  · intro hne
    refine ⟨?_, newMetricEntry_states _ _ _ _⟩
    unfold storeLookup
    rw [hf]
    simp [hne]
  · intro heq
    unfold storeLookup
    rw [hf]
    simp [heq]

/-- C7: for every update of any kind, the state's last-update time is
unconditionally overwritten with the event's timestamp (a store, not a
max), so an update carrying an older timestamp regresses the series'
last-update clock; the eviction predicate reads this same cell. -/
theorem C7_time_store_not_max :
    (∀ (st : metricState) (mt : metricType) (v : ℚ) (t : Int) (bks : List ℚ),
      (stateUpdate st mt v t bks).time = timeToUnix t) ∧
    (∀ (st : metricState) (mt : metricType) (v : ℚ) (t : Int) (bks : List ℚ),
      timeToUnix t < st.time → (stateUpdate st mt v t bks).time < st.time) ∧
    (∀ (exp : Int) (st : metricState),
      keepState exp st = true ↔ exp < unixToTime st.time) := by
  refine ⟨stateUpdate_time, ?_, ?_⟩
  · intro st mt v t bks h
    rw [stateUpdate_time]
    exact h
  · intro exp st
    simp [keepState]

/-- C7 witness: a gauge update stamped at instant 0 on a state whose clock
reads 10 ms regresses the clock. -/
theorem C7_time_store_not_max_witness :
    timeToUnix 0 < ({ time := 10 } : metricState).time ∧
      (stateUpdate { time := 10 } .gauge 1 0 []).time <
        ({ time := 10 } : metricState).time :=
  ⟨by decide, C7_time_store_not_max.2.1 { time := 10 } .gauge 1 0 [] (by decide)⟩

/-- C8: the handler's content negotiation enables gzip exactly when the
`Accept-Encoding` value, split on commas with each token trimmed, contains
a token starting with `gzip`; in particular `identity, gzip; q=0.5`
enables it and the absent header (read as the empty string) does not. -/
theorem C8_gzip_negotiation :
    (∀ accept : String,
      acceptEncoding accept "gzip" = true ↔
        ∃ tok ∈ goSplit ',' accept.data,
          List.isPrefixOf "gzip".data (goTrimSpace tok) = true) ∧
    acceptEncoding "identity, gzip; q=0.5" "gzip" = true ∧
    acceptEncoding "" "gzip" = false := by
  refine ⟨?_, by decide, by decide⟩
  intro accept
  unfold acceptEncoding
  exact List.any_eq_true

/-- C9: storing an instant into the atomic timestamp cell and loading it
back floors it to whole-millisecond precision (instants are nanoseconds
since the Unix epoch); instants that are already whole milliseconds
round-trip exactly. -/
theorem C9_time_roundtrip :
    (∀ t : Int, unixToTime (timeToUnix t) = t / 1000000 * 1000000) ∧
    (∀ t : Int, t % 1000000 = 0 → unixToTime (timeToUnix t) = t) := by
  constructor
  · intro t
    unfold unixToTime timeToUnix
    omega
  · intro t ht
    unfold unixToTime timeToUnix
    omega

/-- C9 witness: the instant 123 ms (in nanoseconds) survives the
round-trip unchanged. -/
theorem C9_time_roundtrip_witness :
    (123000000 : Int) % 1000000 = 0 ∧
      unixToTime (timeToUnix 123000000) = 123000000 :=
  ⟨by decide, C9_time_roundtrip.2 123000000 (by decide)⟩


/-- C1: a histogram update (with matching bucket count, so no reshape)
adds the sample to `sum`, adds 1 to `count`, and applies the bucket walk;
the bucket walk increments exactly the first bucket whose limit is ≥ the
sample and leaves every other bucket unchanged, and when the sample
exceeds every limit it changes no bucket.  On bounds [0.25, 0.5, 0.75, 1]
with samples 0.1, 0.1, 0.5, 10 the resulting series has bucket counts
[2, 1, 0, 0], sum 10.7 and count 4. -/
theorem C1_histogram_update :
    (∀ (st : metricState) (v : ℚ) (t : Int) (bks : List ℚ),
      st.buckets.length = bks.length →
      (stateUpdate st .histogram v t bks).sum = st.sum + v ∧
      (stateUpdate st .histogram v t bks).count = st.count + 1 ∧
      (stateUpdate st .histogram v t bks).buckets = metricBucketsUpdate v st.buckets) ∧
    (∀ (v : ℚ) (bs : List metricBucket) (i : Nat) (hi : i < bs.length),
      (∀ j (hj : j < i), (bs.get ⟨j, lt_trans hj hi⟩).limit < v) →
      v ≤ (bs.get ⟨i, hi⟩).limit →
      metricBucketsUpdate v bs =
        bs.set i { bs.get ⟨i, hi⟩ with
          count := ((bs.get ⟨i, hi⟩).count + 1) % 2 ^ 64 }) ∧
    (∀ (v : ℚ) (bs : List metricBucket),
      (∀ b ∈ bs, b.limit < v) → metricBucketsUpdate v bs = bs) ∧
    (findState s3Store ⟨"", "C"⟩ []).map
        (fun st => (st.buckets.map (·.count), st.sum, st.count)) =
      some ([2, 1, 0, 0], 10.7, 4) := by
  refine ⟨?_, metricBucketsUpdate_of_first, metricBucketsUpdate_of_none, ?_⟩
  · intro st v t bks hlen
    simp [stateUpdate, hlen]
  · norm_num +decide [s3Store, applyAll, storeUpdate, storeLookup, assocFind,
      assocSet, entryUpdate, chainFind, chainReplace, stateUpdate, newMetricEntry,
      newMetricState, labelsEqual, metric.key, findState, entryFind,
      makeMetricBuckets, labelsCopyAppend, metricBucketsUpdate]

/-- C1 witness: on a single bucket with limit 1 the sample 1 increments
exactly that bucket. -/
theorem C1_histogram_update_witness :
    metricBucketsUpdate 1 [{ count := 0, limit := 1, labels := [] }] =
      [{ count := (0 + 1) % 2 ^ 64, limit := 1, labels := [] }] := by
  have h := C1_histogram_update.2.1 1 [{ count := 0, limit := 1, labels := [] }]
    0 (by decide) (fun j hj => absurd hj (Nat.not_lt_zero j)) (le_refl 1)
  simpa using h

/-- C4: after `cleanup(t)` every surviving state of every entry has
last-update time strictly greater than `t` (equality is evicted), and in
scenario S4 (series stamped now-1h, now-1m, now-1s, now, now+1s, cleanup
at now) only the now+1s series survives. -/
theorem C4_cleanup_threshold :
    (∀ (exp : Int) (store : metricStore) (k : metricKey) (e : metricEntry)
      (p : Nat × List metricState) (st : metricState),
      (k, e) ∈ (storeCleanup exp store).entries → p ∈ e.states → st ∈ p.2 →
      exp < unixToTime st.time) ∧
    (storeCollect (storeCleanup s4Now s4Store) []).map (·.name) = ["E"] := by
  constructor
  · intro exp store k e p st hke hp hst
    exact storeCleanup_time exp store k e hke p hp st hst
  · norm_num +decide [s4Store, s4Now, applyAll, storeUpdate, storeLookup,
      assocFind, assocSet, entryUpdate, chainFind, chainReplace, stateUpdate,
      newMetricEntry, newMetricState, labelsEqual, metric.key, storeCleanup,
      entryCleanup, keepState, unixToTime, timeToUnix, storeCollect,
      entryCollect, stateCollect]

/-- C4 witness: a state stamped 5 ms surviving cleanup at threshold 3 ns
indeed has load-time above the threshold. -/
theorem C4_cleanup_threshold_witness : (3 : Int) < unixToTime 5 :=
  C4_cleanup_threshold.1 3 wStore ⟨"", "X"⟩ wEntry (0, [wState]) wState
    (by simp [wStore, wEntry, wState, storeCleanup, entryCleanup, keepState,
      unixToTime])
    (by simp [wEntry]) (by simp)

/-- C5: cleanup deletes an entry whose state map becomes empty, so the
cleaned store contains no entry with zero states (and no empty hash
chain); cleaning scenario S4 past every timestamp leaves the store empty. -/
theorem C5_cleanup_removes_empty :
    (∀ (exp : Int) (store : metricStore) (k : metricKey) (e : metricEntry),
      (k, e) ∈ (storeCleanup exp store).entries →
      e.states ≠ [] ∧ ∀ p ∈ e.states, p.2 ≠ []) ∧
    (storeCleanup (s4Now + 1000000000) s4Store).entries = [] := by
  constructor
  · exact fun exp store k e hke => storeCleanup_no_empty exp store k e hke
  · norm_num +decide [s4Store, s4Now, applyAll, storeUpdate, storeLookup,
      assocFind, assocSet, entryUpdate, chainFind, chainReplace, stateUpdate,
      newMetricEntry, newMetricState, labelsEqual, metric.key, storeCleanup,
      entryCleanup, keepState, unixToTime, timeToUnix]

/-- C5 witness: the surviving entry of a one-entry store still has its
(nonempty) state after a cleanup that evicts nothing. -/
theorem C5_cleanup_removes_empty_witness : wEntry.states ≠ [] :=
  (C5_cleanup_removes_empty.1 3 wStore ⟨"", "X"⟩ wEntry
    (by simp [wStore, wEntry, wState, storeCleanup, entryCleanup, keepState,
      unixToTime])).1


/-- C10: `rootName` returns the name unchanged for non-histogram records;
for a histogram record it strips the final underscore-delimited suffix; on
a histogram record whose name has no underscore the negative slice index
makes it panic (modelled as `none`); and every histogram record produced
by collecting a store built from updates carries one of the pre-rendered
`_bucket`/`_sum`/`_count` names, so `rootName` is defined on it. -/
theorem C10_rootName_safety :
    (∀ m : metric, m.mtype ≠ .histogram → rootName m = some m.name) ∧
    (∀ (m : metric) (p sfx : String), m.mtype = .histogram →
      m.name = p ++ "_" ++ sfx → '_' ∉ sfx.data → rootName m = some p) ∧
    (∀ m : metric, m.mtype = .histogram → '_' ∉ m.name.data →
      rootName m = none) ∧
    (∀ (updates : List (metric × List ℚ)) (m : metric),
      m ∈ storeCollect (applyAll updates {}) [] → m.mtype = .histogram →
      (rootName m).isSome) := by
  refine ⟨?_, ?_, ?_, ?_⟩
  · intro m hm
    simp [rootName, hm]
  · intro m p sfx hm hname hsfx
    rw [rootName, if_pos hm, hname]
    rw [String.data_append, String.data_append]
    have hu : ("_" : String).data = ['_'] := rfl
    rw [hu]
    have hstep : p.data ++ ['_'] ++ sfx.data = p.data ++ '_' :: sfx.data := by
      simp
    rw [hstep, lastUnderscoreIdx_concat p.data sfx.data hsfx]
    simp [List.take_left]
  · intro m hm hu
    rw [rootName, if_pos hm, lastUnderscoreIdx_eq_none _ hu]
    rfl
  · intro updates m hmem hh
    have hwf := storeWF_applyAll updates {} storeWF_empty
    rcases mem_storeCollect m _ _ hmem with h0 | ⟨k, e, hke, st, hstc⟩
    · simp at h0
    · have hme : m.mtype = e.mtype := mem_stateCollect_mtype m st e hstc
      have hhe : e.mtype = .histogram := by rw [← hme]; exact hh
      obtain ⟨hb, hs, hc⟩ := hwf k e hke hhe
      have hname := mem_stateCollect_hist_name m st e hhe hstc
      have hus : '_' ∈ m.name.data := by
        rcases hname with hn | hn | hn <;>
          rw [hn] <;>
          first
            | (rw [hb, String.data_append]
               exact List.mem_append_right _ (by decide))
            | (rw [hs, String.data_append]
               exact List.mem_append_right _ (by decide))
            | (rw [hc, String.data_append]
               exact List.mem_append_right _ (by decide))
      rw [rootName, if_pos hh]
      obtain ⟨i, hi⟩ := Option.isSome_iff_exists.mp (lastUnderscoreIdx_isSome _ hus)
      rw [hi]
      rfl


/-- C10 witness: a counter record's root name is its name. -/
theorem C10_rootName_safety_witness :
    rootName { mtype := .counter, name := "x_y" } = some "x_y" :=
  C10_rootName_safety.1 { mtype := .counter, name := "x_y" } (by decide)

/-- C2 counterexample: one counter update of 2⁶⁴ is observed as 2⁶⁴ — the
float64 accumulator does not reduce modulo 2⁶⁴ (2⁶⁴ mod 2⁶⁴ is 0). -/
theorem C2_counterexample :
    (findState (applySeries .counter ⟨"", "A"⟩ [] {}
        [([], 18446744073709551616, 0)]) ⟨"", "A"⟩ []).map (·.value) =
      some 18446744073709551616 ∧
    ((18446744073709551616 : Int) % 2 ^ 64 : Int) = 0 ∧
    (18446744073709551616 : ℚ) ≠ (((18446744073709551616 : Int) % 2 ^ 64 : Int) : ℚ) := by
  refine ⟨?_, by decide, by norm_num⟩
  norm_num +decide [applySeries, seriesEvent, storeUpdate, storeLookup,
    assocFind, assocSet, entryUpdate, chainFind, chainReplace, stateUpdate,
    newMetricEntry, newMetricState, labelsEqual, metric.key, findState,
    entryFind]

/-- C2 (amended): for every sequence of counter updates to one metric
identity, the value stored for a label set is the exact arithmetic sum of
the values of the updates carrying that label set (no modular reduction);
collect reports exactly the stored value for counter entries; scenario S1
collects A=3 for the empty label set and A=4 for {id=123}. -/
theorem C2_counter_sum :
    (∀ (key : metricKey) (L : List Label)
      (events : List (List Label × ℚ × Int)),
      (findState (applySeries .counter key [] {} events) key L).map (·.value) =
        if (events.filter fun e => decide (e.1 = L)).isEmpty then none
        else
          some (((events.filter fun e => decide (e.1 = L)).map
            fun e => e.2.1).sum)) ∧
    (∀ (st : metricState) (e : metricEntry), e.mtype = .counter →
      (stateCollect st e).map (·.value) = [st.value]) ∧
    (storeCollect s1Store []).map (fun m => (m.name, m.value, m.labels)) =
      [("A", 3, []), ("A", 4, [⟨"id", "123"⟩])] := by
  refine ⟨?_, ?_, ?_⟩
  · intro key L events
    have h0 : findState {} key L = none := rfl
    have h := counter_fold_value key L events {}
      (by intro e he; simp [assocFind] at he)
    rw [h, h0]
    by_cases hemp : (events.filter fun e => decide (e.1 = L)).isEmpty
    · simp [hemp]
    · simp [hemp]
  · intro st e he
    simp [stateCollect, he]
  · norm_num +decide [s1Store, applyAll, storeUpdate, storeLookup, assocFind,
      assocSet, entryUpdate, chainFind, chainReplace, stateUpdate,
      newMetricEntry, newMetricState, labelsEqual, metric.key, storeCollect,
      entryCollect, stateCollect]

/-- C2 witness: collect reads back the stored counter value on a concrete
state and entry. -/
theorem C2_counter_sum_witness :
    (stateCollect wState wEntry).map (·.value) = [wState.value] :=
  C2_counter_sum.2.1 wState wEntry rfl

/-- C3: for every sequence of gauge updates to one metric identity, the
value stored for a label set is the value of the last update carrying
exactly that label set — later updates to other label sets do not affect
it; collect reports the stored value; scenario S2 collects B=42 for
{a=1} and B=21 for {a=1,b=2}. -/
theorem C3_gauge_last_write :
    (∀ (key : metricKey) (L : List Label)
      (events : List (List Label × ℚ × Int)),
      (findState (applySeries .gauge key [] {} events) key L).map (·.value) =
        ((events.filter fun e => decide (e.1 = L)).getLast?).map
          fun e => e.2.1) ∧
    (∀ (st : metricState) (e : metricEntry), e.mtype = .gauge →
      (stateCollect st e).map (·.value) = [st.value]) ∧
    (storeCollect s2Store []).map (fun m => (m.name, m.value, m.labels)) =
      [("B", 21, [⟨"a", "1"⟩, ⟨"b", "2"⟩]), ("B", 42, [⟨"a", "1"⟩])] := by
  refine ⟨?_, ?_, ?_⟩
  · intro key L events
    have h0 : findState {} key L = none := rfl
    have h := gauge_fold_value key L events {}
      (by intro e he; simp [assocFind] at he)
    rw [h, h0]
    cases hlast : (events.filter fun e => decide (e.1 = L)).getLast? <;> simp
  · intro st e he
    simp [stateCollect, he]
  · norm_num +decide [s2Store, applyAll, storeUpdate, storeLookup, assocFind,
      assocSet, entryUpdate, chainFind, chainReplace, stateUpdate,
      newMetricEntry, newMetricState, labelsEqual, metric.key, storeCollect,
      entryCollect, stateCollect]

/-- C3 witness: collect reads back the stored gauge value on a concrete
state and entry. -/
theorem C3_gauge_last_write_witness :
    (stateCollect wState wGaugeEntry).map (·.value) = [wState.value] :=
  C3_gauge_last_write.2.1 wState wGaugeEntry rfl

/-- C6 witness: looking up key X with kind gauge in a store holding a
counter entry under X replaces the entry by a fresh empty-state one. -/
theorem C6_kind_change_replaces_entry_witness :
    (storeLookup wStore .gauge ⟨"", "X"⟩ "" =
      (newMetricEntry .gauge "" "X" "",
       { entries := assocSet wStore.entries ⟨"", "X"⟩ (newMetricEntry .gauge "" "X" "") }) ∧
      (newMetricEntry .gauge "" "X" "").states = []) :=
  (C6_kind_change_replaces_entry wStore .gauge ⟨"", "X"⟩ "" wEntry
    (by simp [wStore, assocFind])).1 (by decide)

end Prom
